import Mathlib

/- Verification of the CUDA API tracker (sources: cuda_api_tracker.py and
   cuda_api_changelog.py): version resolver, version ranges, the catalog and
   changelog builders, the boundary search engine, and the version symbol
   cache.  Pure Python functions become Lean functions; the module-level
   `CUDA_VERSIONS` list, the per-version symbol sets obtained from
   `get_api_list_for_version`, and the on-disk cache become explicit
   parameters.  Python sets of strings are modelled as lists up to
   deduplication (`List.dedup` models `set()`). -/

namespace CudaTrack

/-- Insertion of one element into a list: `x` is placed before the first
element `y` with `le x y = true`. One step of insertion sort. -/
def insertSorted (le : α → α → Bool) (x : α) : List α → List α
  | [] => [x]
  | y :: ys => if le x y then x :: y :: ys else y :: insertSorted le x ys

/-- Insertion sort; models Python `sorted` (it agrees with Python's stable sort
whenever the sort keys of the elements are pairwise distinct, which holds at
every use site below: the sorted lists are deduplicated strings or versions
drawn from distinct positions of a duplicate-free version list). -/
def isort (le : α → α → Bool) : List α → List α
  | [] => []
  | x :: xs => insertSorted le x (isort le xs)

/-- Lexicographic strict order on lists of characters, by code point; the
order Python uses to compare strings. -/
def ltCharList : List Char → List Char → Bool
  | [], [] => false
  | [], _ :: _ => true
  | _ :: _, [] => false
  | a :: as, b :: bs => if a < b then true else if b < a then false else ltCharList as bs

/-- Total order used to model Python string comparison. -/
def leStr (a b : String) : Bool := !(ltCharList b.data a.data)

/-- Python `sorted` over strings (lexicographic order on code points). -/
def sortStr (l : List String) : List String :=
  isort leStr l

/-- Python `sorted(key=lambda v: CUDA_VERSIONS.index(v))`
(cuda_api_tracker.py lines 341-342 and 391-392): sort versions by their rank
in the full ordered version list. -/
def sortByRank (versions : List String) (l : List String) : List String :=
  isort (fun a b => decide (versions.indexOf a ≤ versions.indexOf b)) l

/-- The fixed ordered list of CUDA versions, oldest first
(cuda_api_tracker.py lines 33-61). -/
def CUDA_VERSIONS : List String :=
  ["8.0",
   "9.0", "9.1", "9.2",
   "10.0", "10.1", "10.2",
   "11.0",
   "11.1.0", "11.1.1",
   "11.2.0", "11.2.1", "11.2.2",
   "11.3.0", "11.3.1",
   "11.4.0", "11.4.1", "11.4.2", "11.4.3", "11.4.4",
   "11.5.0", "11.5.1", "11.5.2",
   "11.6.0", "11.6.1", "11.6.2",
   "11.7.0", "11.7.1",
   "11.8.0",
   "12.0.0", "12.0.1",
   "12.1.0", "12.1.1",
   "12.2.0", "12.2.1", "12.2.2",
   "12.3.0", "12.3.1", "12.3.2",
   "12.4.0", "12.4.1",
   "12.5.0", "12.5.1",
   "12.6.0", "12.6.1", "12.6.2", "12.6.3",
   "12.8.0", "12.8.1",
   "12.9.0", "12.9.1",
   "13.0.0", "13.0.1", "13.0.2",
   "13.1.0", "13.1.1"]

/-- Python `s.split('.')` over the character list: split at every dot, keeping
empty components. -/
def splitDots : List Char → List (List Char)
  | [] => [[]]
  | c :: rest =>
    let r := splitDots rest
    if c = '.' then [] :: r
    else
      match r with
      | [] => [[c]]
      | g :: gs => (c :: g) :: gs

/-- Python `int(x)` restricted to the digit strings that occur in version
tokens; `none` when the component is empty or holds a non-digit (there the
source raises `ValueError`). -/
def digitsToNat (cs : List Char) : Option Nat :=
  if cs ≠ [] ∧ cs.all Char.isDigit then
    some (cs.foldl (fun n c => n * 10 + (c.toNat - 48)) 0)
  else none

/-- Python `[int(x) for x in s.split('.')]`; `none` when some dot-separated
component is not a digit string. -/
def parseDotted (s : String) : Option (List Nat) :=
  (splitDots s.data).mapM digitsToNat

/-- The numeric acceptance test of `find_closest_version`
(cuda_api_changelog.py lines 43-45):
`v_parts[0] == target_parts[0] and (len(target_parts) == 1 or v_parts[1] >= target_parts[1])`.
Returns `false` when `v_parts[1]` is needed but missing (the source would raise
`IndexError`; every canonical version string has at least two components). -/
def mmMatch (vparts tparts : List Nat) : Bool :=
  match vparts, tparts with
  | v0 :: vrest, t0 :: trest =>
      v0 == t0 &&
        (match trest, vrest with
         | [], _ => true
         | t1 :: _, v1 :: _ => decide (t1 ≤ v1)
         | _ :: _, [] => false)
  | _, _ => false

/-- Version Resolver: `find_closest_version` (cuda_api_changelog.py lines
31-47), parametrised by the ordered version list (the source reads the
module-level `CUDA_VERSIONS`). Stages: exact match, then first prefix match,
then first major/minor numeric match; `none` when nothing matches. -/
def find_closest_version (all : List String) (target : String) : Option String :=
  if target ∈ all then
    some target
  else
    match all.find? (fun v => target.data.isPrefixOf v.data) with
    | some v => some v
    | none =>
      match parseDotted target with
      | none => none
      | some tparts =>
          all.find? (fun v =>
            match parseDotted v with
            | some vparts => mmMatch vparts tparts
            | none => false)

/-- Version Resolver range: `get_version_range` (cuda_api_changelog.py lines
50-71). `none` models the `sys.exit(1)` taken when a supplied token does not
resolve; the returned slice is Python `CUDA_VERSIONS[start_idx:end_idx]`. -/
def get_version_range (all : List String) (since untl : Option String) :
    Option (List String) :=
  match (match since with
         | none => some 0
         | some s => (find_closest_version all s).map (fun v => all.indexOf v)) with
  | none => none
  | some start_idx =>
    match (match untl with
           | none => some all.length
           | some u => (find_closest_version all u).map (fun v => all.indexOf v + 1)) with
    | none => none
    | some end_idx => some ((all.take end_idx).drop start_idx)

/-- Lifecycle record stored at `catalog['apis'][api]`
(cuda_api_changelog.py lines 148-153). -/
structure ApiRecord where
  introduced : Option String
  removed : Option String
  status : String
  present_in : List String
deriving DecidableEq

/-- One step of the per-symbol scan of `generate_api_catalog`
(cuda_api_changelog.py lines 126-134); the state is
`(first_seen, removed, present_in)`. -/
def catalogStep (sets : String → List String) (api : String)
    (st : Option String × Option String × List String) (v : String) :
    Option String × Option String × List String :=
  let (first_seen, removed, present_in) := st
  if api ∈ sets v then
    (if first_seen = none then some v else first_seen, removed, present_in ++ [v])
  else
    if present_in ≠ [] ∧ removed = none then (first_seen, some v, present_in)
    else st

/-- Per-symbol lifecycle computation of `generate_api_catalog`
(cuda_api_changelog.py lines 120-153).  The source indexes `versions[-1]` and
`versions[0]`; the `getLastD`/`headD` defaults are never reached at call sites
because the catalog is built only over the symbols of a version in the list. -/
def buildRecord (versions : List String) (sets : String → List String)
    (api : String) : ApiRecord :=
  let st := versions.foldl (catalogStep sets api) (none, none, [])
  let first_seen := st.1
  let removed := st.2.1
  let present_in := st.2.2
  let status :=
    if api ∈ sets (versions.getLastD "") then "present"
    else if present_in ≠ [] then "removed"
    else "never_present"
  let introduced := if first_seen = some (versions.headD "") then none else first_seen
  { introduced := introduced, removed := removed, status := status,
    present_in := present_in }

/-- Catalog Builder: `generate_api_catalog` (cuda_api_changelog.py lines
87-166), with the per-version fetch abstracted into `sets` (the union over the
requested categories, as built by `fetch_all_versions`).  The `apis` dict is
modelled as an association list keyed by symbol, in `sorted(all_apis)` order;
`dedup` models the `set()` union of line 106-108. -/
def generate_api_catalog (versions : List String) (sets : String → List String) :
    List (String × ApiRecord) :=
  let all_apis := sortStr ((versions.flatMap sets).dedup)
  all_apis.map (fun api => (api, buildRecord versions sets api))

/-- Summary counters of the catalog (cuda_api_changelog.py lines 156-164). -/
structure CatalogSummary where
  total : Nat
  present : Nat
  removed : Nat
  introduced_in_range : Nat
  already_present : Nat
deriving DecidableEq

/-- Derived catalog summary (cuda_api_changelog.py lines 156-164). -/
def catalog_summary (catalog : List (String × ApiRecord)) : CatalogSummary :=
  { total := catalog.length,
    present := (catalog.filter (fun p => p.2.status = "present")).length,
    removed := (catalog.filter (fun p => p.2.status = "removed")).length,
    introduced_in_range := (catalog.filter (fun p => p.2.introduced ≠ none)).length,
    already_present :=
      (catalog.filter (fun p => p.2.introduced = none ∧ p.2.present_in ≠ [])).length }

/-- Entry of `changelog['versions']` (cuda_api_changelog.py lines 217-225). -/
structure VersionDiff where
  version : String
  previous : String
  total_apis : Nat
  added : List String
  removed : List String
  added_count : Nat
  removed_count : Nat
deriving DecidableEq

/-- The `changelog['summary']` dictionary (cuda_api_changelog.py lines
194-199 and 242-248). -/
structure ChangelogSummary where
  total_added : Nat
  total_removed : Nat
  all_added : List String
  all_removed : List String
  net_new : List String
  net_removed : List String
deriving DecidableEq

/-- The changelog result (cuda_api_changelog.py lines 187-250). -/
structure Changelog where
  versions : List VersionDiff
  summary : ChangelogSummary
deriving DecidableEq

/-- Diff of one consecutive pair (cuda_api_changelog.py lines 213-225):
`added = sorted(apis - prev_apis)`, `removed = sorted(prev_apis - apis)`;
`dedup` models the fact that the Python values are sets. -/
def mkDiff (sets : String → List String) (prev curr : String) : VersionDiff :=
  let curSet := (sets curr).dedup
  let prevSet := (sets prev).dedup
  let added := sortStr (curSet.filter (fun a => !(decide (a ∈ prevSet))))
  let removed := sortStr (prevSet.filter (fun a => !(decide (a ∈ curSet))))
  { version := curr, previous := prev, total_apis := curSet.length,
    added := added, removed := removed,
    added_count := added.length, removed_count := removed.length }

/-- The version-by-version loop of `generate_changelog` (cuda_api_changelog.py
lines 205-240), carrying `prev_version` through the scan. -/
def changelogDiffs (sets : String → List String) :
    String → List String → List VersionDiff
  | _, [] => []
  | prev, curr :: rest => mkDiff sets prev curr :: changelogDiffs sets curr rest

/-- Changelog Builder: `generate_changelog` (cuda_api_changelog.py lines
169-250). `none` models the `sys.exit(1)` taken when the range has fewer than
2 versions (lines 179-181). -/
def generate_changelog (versions : List String) (sets : String → List String) :
    Option Changelog :=
  match versions with
  | v0 :: v1 :: rest =>
    let diffs := changelogDiffs sets v0 (v1 :: rest)
    let all_added_raw := diffs.foldl (fun acc d => acc ++ d.added) []
    let all_removed_raw := diffs.foldl (fun acc d => acc ++ d.removed) []
    let total_added := diffs.foldl (fun n d => n + d.added_count) 0
    let total_removed := diffs.foldl (fun n d => n + d.removed_count) 0
    let all_added := sortStr all_added_raw.dedup
    let all_removed := sortStr all_removed_raw.dedup
    let net_new := sortStr (all_added.filter (fun a => !(decide (a ∈ all_removed))))
    let net_removed := sortStr (all_removed.filter (fun a => !(decide (a ∈ all_added))))
    some { versions := diffs,
           summary := { total_added := total_added, total_removed := total_removed,
                        all_added := all_added, all_removed := all_removed,
                        net_new := net_new, net_removed := net_removed } }
  | _ => none

/-- Result dictionary of `find_api_history`
(cuda_api_tracker.py lines 286-294). -/
structure SearchResult where
  introduced : Option String
  removed : Option String
  present_in : List String
  not_found_in : List String
  versions_checked : Nat
deriving DecidableEq

/-- The introduction-search loop of `find_api_history` (cuda_api_tracker.py
lines 318-338): walk strictly older versions recording presence; without
`full_scan` stop right after the first absent version.  The inner loop of the
removal branch (lines 368-383) is this same walk with `full_scan = false`.
Returns `(present_in, not_found_in, versions_checked)` contributions, with the
version lists in walk (newest-to-oldest) order. -/
def introScan (apiOf : String → List String) (api : String) (full_scan : Bool) :
    List String → List String × List String × Nat
  | [] => ([], [], 0)
  | v :: rest =>
    if api ∈ apiOf v then
      let r := introScan apiOf api full_scan rest
      (v :: r.1, r.2.1, r.2.2 + 1)
    else
      if full_scan then
        let r := introScan apiOf api full_scan rest
        (r.1, v :: r.2.1, r.2.2 + 1)
      else ([], [v], 1)

/-- The removal-search loop of `find_api_history` (cuda_api_tracker.py lines
352-388): walk strictly older versions until the symbol is found; without
`full_scan`, switch there to the introduction walk (the inner loop, lines
368-383) and stop; with `full_scan`, keep scanning the whole list. -/
def removalScan (apiOf : String → List String) (api : String) (full_scan : Bool) :
    List String → List String × List String × Nat
  | [] => ([], [], 0)
  | v :: rest =>
    if api ∈ apiOf v then
      if full_scan then
        let r := removalScan apiOf api full_scan rest
        (v :: r.1, r.2.1, r.2.2 + 1)
      else
        let r := introScan apiOf api false rest
        (v :: r.1, r.2.1, r.2.2 + 1)
    else
      let r := removalScan apiOf api full_scan rest
      (r.1, v :: r.2.1, r.2.2 + 1)

/-- Boundary Search Engine: `find_api_history` (cuda_api_tracker.py lines
269-401), parametrised by the ordered version list and by the per-version
symbol sets (`get_api_list_for_version` abstracted as `apiOf`).  The source
indexes `versions_reversed[0]`; the empty-list branch is unreachable in the
program, where the version list is the non-empty `CUDA_VERSIONS`. -/
def find_api_history (versions : List String) (apiOf : String → List String)
    (api : String) (full_scan : Bool) : SearchResult :=
  match versions.reverse with
  | [] =>
    { introduced := none, removed := none, present_in := [],
      not_found_in := [], versions_checked := 0 }
  | latest :: rest =>
    if api ∈ apiOf latest then
      let r := introScan apiOf api full_scan rest
      let present := sortByRank versions (latest :: r.1)
      { introduced := present.head?, removed := none,
        present_in := present, not_found_in := r.2.1,
        versions_checked := r.2.2 + 1 }
    else
      let r := removalScan apiOf api full_scan rest
      match sortByRank versions r.1 with
      | [] =>
        { introduced := none, removed := none, present_in := [],
          not_found_in := latest :: r.2.1, versions_checked := r.2.2 + 1 }
      | ph :: pt =>
        let last_present_idx := versions.indexOf ((ph :: pt).getLast (by simp))
        { introduced := some ph, removed := versions[last_present_idx + 1]?,
          present_in := ph :: pt, not_found_in := latest :: r.2.1,
          versions_checked := r.2.2 + 1 }

/-- Exit status of a single-symbol search run of `main`
(cuda_api_tracker.py line 526): `return 0 if result['present_in'] else 1`. -/
def main_search_exit_code (versions : List String) (apiOf : String → List String)
    (api : String) (full_scan : Bool) : Nat :=
  if (find_api_history versions apiOf api full_scan).present_in = [] then 1 else 0

/-- Exit status of a catalog/changelog run in changelog mode: `sys.exit(1)`
from `get_version_range` on an unresolvable token (cuda_api_changelog.py lines
57-66) or from `generate_changelog` on a range of fewer than 2 versions (lines
179-181); otherwise `main` returns 0 (line 539). -/
def changelog_exit_code (all : List String) (since untl : Option String) : Nat :=
  match get_version_range all since untl with
  | none => 1
  | some vs => if vs.length < 2 then 1 else 0

/-- External collaborators of `get_api_list_for_version` as the spec draws the
boundary: the page fetcher (`fetch_url`, returning `""` on any failure), the
symbol extractor (`extract_apis_from_html`) and the module-index link parser
(`ModuleIndexParser.group_links`). -/
structure Env where
  fetch : String → String
  extract : String → List String
  moduleLinks : String → List String

/-- Cache state: one entry per `(api_type, version)` key, modelling one JSON
file per key under `.cache` (`get_cache_path`, cuda_api_tracker.py lines
120-123); the most recent write for a key shadows older ones. -/
abbrev Cache := List ((String × String) × List String)

/-- Base URL for archived documentation (cuda_api_tracker.py line 64). -/
def ARCHIVE_BASE : String := "https://docs.nvidia.com/cuda/archive"

/-- Base URL for the latest documentation (cuda_api_tracker.py line 65). -/
def LATEST_BASE : String := "https://docs.nvidia.com/cuda"

/-- Python `url.rsplit('/', 1)[0]` (cuda_api_tracker.py line 238). -/
def rsplitBase (url : String) : String :=
  let parts := url.splitOn "/"
  if parts.length ≤ 1 then url else String.intercalate "/" parts.dropLast

/-- Resolution of a group link against the candidate page's directory
(cuda_api_tracker.py lines 240-243). -/
def groupUrl (base_path link : String) : String :=
  if link.startsWith "http" then link else base_path ++ "/" ++ link

/-- Symbols harvested from one candidate page whose content is non-empty: the
main page plus the first 20 group pages it links to
(cuda_api_tracker.py lines 227-247). -/
def harvestPage (env : Env) (base_url html : String) : List String :=
  let base_path := rsplitBase base_url
  env.extract html ++
    ((env.moduleLinks html).take 20).flatMap (fun link =>
      let ghtml := env.fetch (groupUrl base_path link)
      if ghtml = "" then [] else env.extract ghtml)

/-- The candidate-URL loop of `get_api_list_for_version` (cuda_api_tracker.py
lines 220-250): skip candidates with empty content (`continue`); otherwise
accumulate harvested symbols into the running set and stop at the first
candidate after which the accumulated set is non-empty (`if apis: break`). -/
def tryCandidates (env : Env) (acc : List String) : List String → List String
  | [] => acc
  | url :: rest =>
    let html := env.fetch url
    if html = "" then tryCandidates env acc rest
    else
      let acc2 := acc ++ harvestPage env url html
      if acc2.isEmpty then tryCandidates env acc2 rest else acc2

/-- The fetch phase of `get_api_list_for_version` (cuda_api_tracker.py lines
203-256): build the candidate URLs, run the candidate loop, and union in the
extra deprecated-functions page when it is reachable. -/
def fetchApis (env : Env) (all_versions : List String)
    (version api_type : String) : List String :=
  let api_doc := if api_type = "runtime" then "cuda-runtime-api" else "cuda-driver-api"
  let urls :=
    [ARCHIVE_BASE ++ "/" ++ version ++ "/" ++ api_doc ++ "/index.html",
     ARCHIVE_BASE ++ "/" ++ version ++ "/" ++ api_doc ++ "/cuda-runtime-api/index.html"] ++
    (if all_versions.getLast? = some version then
      [LATEST_BASE ++ "/" ++ api_doc ++ "/index.html"]
     else [])
  let apis := tryCandidates env [] urls
  let depUrl := ARCHIVE_BASE ++ "/" ++ version ++ "/" ++ api_doc ++
    "/group__CUDART__HIGHLEVEL.html"
  let dhtml := env.fetch depUrl
  if dhtml = "" then apis else apis ++ env.extract dhtml

/-- Version Symbol Cache: `get_api_list_for_version` (cuda_api_tracker.py
lines 181-266).  Returns the symbol set together with the updated cache; the
on-disk files are modelled by the association list `cache`, and the cached
value is `sorted(apis)` of the deduplicated set (line 262); the write happens
only under `if apis and use_cache` (line 259). -/
def get_api_list_for_version (env : Env) (all_versions : List String)
    (cache : Cache) (use_cache : Bool) (version api_type : String) :
    List String × Cache :=
  let key := (api_type, version)
  match (if use_cache then cache.lookup key else none) with
  | some cached => (cached, cache)
  | none =>
    let apis := fetchApis env all_versions version api_type
    if !apis.isEmpty && use_cache then
      (apis, (key, sortStr apis.dedup) :: cache)
    else (apis, cache)

/-- Boolean presence test of a symbol in one version's set; shared by the
statements about the catalog builder and the boundary search. -/
def presentB (sets : String → List String) (api : String) : String → Bool :=
  fun v => decide (api ∈ sets v)

/-- First-some choice on options, used to state the catalog scan invariant
(`first_seen`/`removed` are set once and never overwritten). -/
def orElseO (a b : Option α) : Option α :=
  match a with
  | some x => some x
  | none => b

/-- Three-version list used by the concrete scenarios. -/
def vers3 : List String := ["1.0", "2.0", "3.0"]

/-- Symbol sets where the symbol `f` flickers: present in 1.0, absent from
2.0, present again in 3.0. -/
def setsFlicker : String → List String
  | "1.0" => ["f"]
  | "3.0" => ["f"]
  | _ => []

/-- Symbol sets where `f` is present in 1.0 and 2.0 and gone from 3.0. -/
def setsDropped : String → List String
  | "1.0" => ["f"]
  | "2.0" => ["f"]
  | _ => []

/-- Symbol sets where `s` is present only in the newest version 3.0. -/
def setsOnlyNewest : String → List String
  | "3.0" => ["s"]
  | _ => []

/-- Scenario B symbol sets: `{1.0: {f}, 2.0: {f, g}, 3.0: {g}}`. -/
def setsScenB : String → List String
  | "1.0" => ["f"]
  | "2.0" => ["f", "g"]
  | "3.0" => ["g"]
  | _ => []

/-- Empty symbol sets: no symbol is present in any version. -/
def setsNone : String → List String := fun _ => []

/-- Symbol sets where `e` is present in every version. -/
def setsEvery : String → List String := fun _ => ["e"]

/-- The version list of Scenario C. -/
def vres : List String := ["1.0", "2.0", "2.1", "3.0"]

/-- Environment in which every fetch fails (`fetch_url` returns `""`). -/
def envDead : Env :=
  { fetch := fun _ => "", extract := fun _ => [], moduleLinks := fun _ => [] }

/- ------------------------------------------------------------------ -/
/- Theorems.  General lemmas about the sorting model first, then the   -/
/- claims C1-C10 with their witnesses and counterexamples.             -/
/- ------------------------------------------------------------------ -/

theorem mem_insertSorted (le : α → α → Bool) (x a : α) (l : List α) :
    a ∈ insertSorted le x l ↔ a = x ∨ a ∈ l := by
  induction l with
  | nil => simp [insertSorted]
  | cons y ys ih =>
    by_cases h : le x y
    · simp [insertSorted, h]
    · simp only [insertSorted, h, Bool.false_eq_true, if_false, List.mem_cons, ih]
      tauto

theorem mem_isort (le : α → α → Bool) (a : α) (l : List α) :
    a ∈ isort le l ↔ a ∈ l := by
  induction l with
  | nil => simp [isort]
  | cons x xs ih => simp [isort, mem_insertSorted, ih]

theorem length_insertSorted (le : α → α → Bool) (x : α) (l : List α) :
    (insertSorted le x l).length = l.length + 1 := by
  induction l with
  | nil => rfl
  | cons y ys ih =>
    by_cases h : le x y
    · simp [insertSorted, h]
    · simp only [insertSorted, h, Bool.false_eq_true, if_false, List.length_cons, ih]

theorem length_isort (le : α → α → Bool) (l : List α) :
    (isort le l).length = l.length := by
  induction l with
  | nil => rfl
  | cons x xs ih => simp [isort, length_insertSorted, ih]

theorem isort_eq_nil_iff (le : α → α → Bool) (l : List α) :
    isort le l = [] ↔ l = [] := by
  constructor
  · intro h
    have := length_isort le l
    rw [h] at this
    exact List.length_eq_zero.mp this.symm
  · intro h; subst h; rfl

theorem insertSorted_of_forall_not (le : α → α → Bool) (x : α) (l : List α)
    (h : ∀ y ∈ l, le x y = false) : insertSorted le x l = l ++ [x] := by
  induction l with
  | nil => rfl
  | cons y ys ih =>
    have hy := h y (by simp)
    simp only [insertSorted, hy, Bool.false_eq_true, if_false, List.cons_append]
    rw [ih (fun z hz => h z (by simp [hz]))]

theorem isort_of_pairwise_false (le : α → α → Bool) (l : List α)
    (h : l.Pairwise (fun a b => le a b = false)) : isort le l = l.reverse := by
  induction l with
  | nil => rfl
  | cons x xs ih =>
    rw [List.pairwise_cons] at h
    show insertSorted le x (isort le xs) = (x :: xs).reverse
    rw [ih h.2, insertSorted_of_forall_not]
    · simp
    · intro y hy
      exact h.1 y (by simpa using hy)

theorem pairwise_indexOf_lt (l : List String) (h : l.Nodup) :
    l.Pairwise (fun a b => l.indexOf a < l.indexOf b) := by
  induction l with
  | nil => exact List.Pairwise.nil
  | cons x xs ih =>
    rw [List.nodup_cons] at h
    constructor
    · intro b hb
      have hbx : x ≠ b := fun e => h.1 (e ▸ hb)
      rw [List.indexOf_cons_self, List.indexOf_cons_ne _ hbx]
      exact Nat.succ_pos _
    · refine List.Pairwise.imp_of_mem ?_ (ih h.2)
      intro a b ha hb hab
      have hax : x ≠ a := fun e => h.1 (e ▸ ha)
      have hbx : x ≠ b := fun e => h.1 (e ▸ hb)
      rw [List.indexOf_cons_ne _ hax, List.indexOf_cons_ne _ hbx]
      exact Nat.succ_lt_succ hab

theorem sortByRank_of_desc (versions l : List String) (hnd : versions.Nodup)
    (hsub : l.Sublist versions.reverse) :
    sortByRank versions l = l.reverse := by
  apply isort_of_pairwise_false
  have h1 : versions.reverse.Pairwise
      (fun a b => versions.indexOf b < versions.indexOf a) := by
    rw [List.pairwise_reverse]
    exact pairwise_indexOf_lt versions hnd
  refine (h1.sublist hsub).imp ?_
  intro a b hab
  simp only [decide_eq_false_iff_not]
  omega

theorem find_closest_version_mem (all : List String) (t v : String)
    (h : find_closest_version all t = some v) : v ∈ all := by
  unfold find_closest_version at h
  by_cases ht : t ∈ all
  · rw [if_pos ht] at h
    cases h
    exact ht
  · rw [if_neg ht] at h
    cases hf : all.find? (fun v => t.data.isPrefixOf v.data) with
    | some w =>
      rw [hf] at h
      cases h
      exact List.mem_of_find?_eq_some hf
    | none =>
      rw [hf] at h
      cases hp : parseDotted t with
      | none => rw [hp] at h; cases h
      | some tp =>
        rw [hp] at h
        exact List.mem_of_find?_eq_some h

/-- C5: the Version Resolver returns an exact match when the token equals a
canonical version; otherwise the first canonical version of which the token is
a string prefix; otherwise, parsing the token as a dotted numeric prefix, the
first version in ascending (list) order whose major matches and whose minor is
at least the requested minor (any minor when only a major is given); and it
returns no version (`main` then reports the error and exits) when no version
matches. -/
theorem resolver_stages (all : List String) (target : String) :
    (target ∈ all → find_closest_version all target = some target) ∧
    (target ∉ all → ∀ v, all.find? (fun v => target.data.isPrefixOf v.data) = some v →
        find_closest_version all target = some v) ∧
    (∀ tparts, target ∉ all →
        all.find? (fun v => target.data.isPrefixOf v.data) = none →
        parseDotted target = some tparts →
        find_closest_version all target =
          all.find? (fun v =>
            match parseDotted v with
            | some vparts => mmMatch vparts tparts
            | none => false)) ∧
    (∀ vparts tparts v0 t0,
        mmMatch vparts tparts = true →
        vparts.head? = some v0 → tparts.head? = some t0 →
        v0 = t0 ∧
          (tparts.length = 1 ∨
            ∃ t1 v1, tparts[1]? = some t1 ∧ vparts[1]? = some v1 ∧ t1 ≤ v1)) := by
  refine ⟨?_, ?_, ?_, ?_⟩
  · intro h
    unfold find_closest_version
    rw [if_pos h]
  · intro h v hv
    unfold find_closest_version
    rw [if_neg h, hv]
  · intro tparts h hpf hparse
    unfold find_closest_version
    rw [if_neg h, hpf, hparse]
  · intro vparts tparts v0 t0 hm h0 h1
    match vparts, tparts with
    | va :: vrest, ta :: trest =>
      simp only [List.head?_cons, Option.some.injEq] at h0 h1
      subst h0; subst h1
      unfold mmMatch at hm
      rw [Bool.and_eq_true, beq_iff_eq] at hm
      refine ⟨hm.1, ?_⟩
      match trest, vrest, hm.2 with
      | [], _, _ => exact Or.inl rfl
      | t1 :: ts, v1 :: vs, h2 =>
        refine Or.inr ⟨t1, v1, by simp, by simp, ?_⟩
        simpa using h2

/-- Witness for C5 at Scenario C: over `[1.0, 2.0, 2.1, 3.0]` the token "2"
resolves to `2.0` by the prefix rule, and the token "9" resolves to nothing. -/
theorem resolver_stages_witness :
    find_closest_version vres "2" = some "2.0" ∧
    find_closest_version vres "9" = none := by
  constructor
  · exact (resolver_stages vres "2").2.1 (by decide) "2.0" (by decide)
  · exact Eq.trans
      ((resolver_stages vres "9").2.2.1 [9] (by decide) (by decide) (by decide))
      (by decide)

/-- C6 counterexample: over `["1.0", "2.0", "3.0"]` the tokens "3.0" and "1.0"
both resolve, yet `get_version_range` returns the empty slice because the
since version ranks after the until version — refuting the claim that the
result is always non-empty in that case. -/
theorem range_empty_when_reversed :
    find_closest_version vers3 "3.0" = some "3.0" ∧
    find_closest_version vers3 "1.0" = some "1.0" ∧
    get_version_range vers3 (some "3.0") (some "1.0") = some [] := by
  refine ⟨by decide, by decide, by decide⟩

/-- C6 amended: when both tokens resolve, the range operation returns the
inclusive slice of the ordered version list between the two resolved ranks;
the slice is ordered by ascending rank; it is non-empty whenever the since
rank is at most the until rank, and empty when the since version ranks after
the until version. -/
theorem range_slice_spec (all : List String) (s u sv uv : String)
    (hnd : all.Nodup)
    (hs : find_closest_version all s = some sv)
    (hu : find_closest_version all u = some uv) :
    get_version_range all (some s) (some u) =
      some ((all.take (all.indexOf uv + 1)).drop (all.indexOf sv)) ∧
    ((all.take (all.indexOf uv + 1)).drop (all.indexOf sv)).Pairwise
      (fun a b => all.indexOf a < all.indexOf b) ∧
    (all.indexOf sv ≤ all.indexOf uv →
      (all.take (all.indexOf uv + 1)).drop (all.indexOf sv) ≠ []) ∧
    (all.indexOf uv < all.indexOf sv →
      (all.take (all.indexOf uv + 1)).drop (all.indexOf sv) = []) := by
  have hsvm : sv ∈ all := find_closest_version_mem all s sv hs
  have huvm : uv ∈ all := find_closest_version_mem all u uv hu
  have hjl : all.indexOf uv < all.length := List.indexOf_lt_length.mpr huvm
  have hlen : ((all.take (all.indexOf uv + 1)).drop (all.indexOf sv)).length =
      min (all.indexOf uv + 1) all.length - all.indexOf sv := by
    rw [List.length_drop, List.length_take]
  refine ⟨?_, ?_, ?_, ?_⟩
  · unfold get_version_range
    simp [hs, hu]
  · have hsub : ((all.take (all.indexOf uv + 1)).drop (all.indexOf sv)).Sublist all :=
      ((all.take (all.indexOf uv + 1)).drop_sublist (all.indexOf sv)).trans
        (all.take_sublist (all.indexOf uv + 1))
    exact (pairwise_indexOf_lt all hnd).sublist hsub
  · intro hle
    intro hnil
    rw [hnil] at hlen
    simp only [List.length_nil] at hlen
    omega
  · intro hlt
    have : ((all.take (all.indexOf uv + 1)).drop (all.indexOf sv)).length = 0 := by
      omega
    exact List.length_eq_zero.mp this

/-- Witness for the amended C6: over `["1.0", "2.0", "3.0"]` with since "1.0"
and until "2.0" the slice is `["1.0", "2.0"]`, non-empty and rank-ordered. -/
theorem range_slice_spec_witness :
    get_version_range vers3 (some "1.0") (some "2.0") =
      some ((vers3.take (vers3.indexOf "2.0" + 1)).drop (vers3.indexOf "1.0")) ∧
    ((vers3.take (vers3.indexOf "2.0" + 1)).drop (vers3.indexOf "1.0")).Pairwise
      (fun a b => vers3.indexOf a < vers3.indexOf b) ∧
    (vers3.indexOf "1.0" ≤ vers3.indexOf "2.0" →
      (vers3.take (vers3.indexOf "2.0" + 1)).drop (vers3.indexOf "1.0") ≠ []) ∧
    (vers3.indexOf "2.0" < vers3.indexOf "1.0" →
      (vers3.take (vers3.indexOf "2.0" + 1)).drop (vers3.indexOf "1.0") = []) :=
  range_slice_spec vers3 "1.0" "2.0" "1.0" "2.0" (by decide) (by decide) (by decide)

theorem orElseO_none (a : Option α) : orElseO a none = a := by
  cases a <;> rfl

theorem catalog_foldl_spec (sets : String → List String) (api : String)
    (l : List String) :
    ∀ fs rm (pi : List String), (fs = none ↔ pi = []) →
    l.foldl (catalogStep sets api) (fs, rm, pi) =
      (orElseO fs (l.find? (presentB sets api)),
       orElseO rm
         (if pi = [] then
           (l.dropWhile (fun v => !presentB sets api v)).find?
             (fun v => !presentB sets api v)
          else l.find? (fun v => !presentB sets api v)),
       pi ++ l.filter (presentB sets api)) := by
  induction l with
  | nil =>
    intro fs rm pi _
    simp [orElseO_none]
  | cons v rest ih =>
    intro fs rm pi hc
    by_cases hp : api ∈ sets v
    · have hpb : presentB sets api v = true := by
        simp [presentB, hp]
      have hstep : catalogStep sets api (fs, rm, pi) v =
          (if fs = none then some v else fs, rm, pi ++ [v]) := by
        simp [catalogStep, hp]
      rw [List.foldl_cons, hstep,
        ih (if fs = none then some v else fs) rm (pi ++ [v])
          (by constructor
              · intro h
                by_cases hfs : fs = none <;> simp [hfs] at h
              · intro h
                exact absurd h (by simp))]
      simp only [Prod.mk.injEq]
      refine ⟨?_, ?_, ?_⟩
      · rw [List.find?_cons_of_pos _ hpb]
        cases fs <;> simp [orElseO]
      · have hd : List.dropWhile (fun x => !presentB sets api x) (v :: rest) =
            v :: rest :=
          List.dropWhile_cons_of_neg (by simp [hpb])
        have hf : List.find? (fun x => !presentB sets api x) (v :: rest) =
            List.find? (fun x => !presentB sets api x) rest :=
          List.find?_cons_of_neg _ (by simp [hpb])
        rw [hd, hf, if_neg (show ¬(pi ++ [v] = []) by simp)]
        simp
      · rw [List.filter_cons_of_pos hpb]
        simp
    · have hpb : presentB sets api v = false := by
        simp [presentB, hp]
      have hfneg : List.find? (presentB sets api) (v :: rest) =
          List.find? (presentB sets api) rest :=
        List.find?_cons_of_neg _ (by simp [hpb])
      have hfpos : List.find? (fun x => !presentB sets api x) (v :: rest) =
          some v :=
        List.find?_cons_of_pos _ (by simp [hpb])
      have hdpos : List.dropWhile (fun x => !presentB sets api x) (v :: rest) =
          List.dropWhile (fun x => !presentB sets api x) rest :=
        List.dropWhile_cons_of_pos (by simp [hpb])
      have hfc : List.filter (presentB sets api) (v :: rest) =
          List.filter (presentB sets api) rest :=
        List.filter_cons_of_neg (by simp [hpb])
      by_cases hcond : pi ≠ [] ∧ rm = none
      · have hstep : catalogStep sets api (fs, rm, pi) v = (fs, some v, pi) := by
          simp [catalogStep, hp, hcond.1, hcond.2]
        rw [List.foldl_cons, hstep, ih fs (some v) pi hc]
        simp only [Prod.mk.injEq]
        refine ⟨by rw [hfneg], ?_, by rw [hfc]⟩
        rw [hcond.2]
        simp only [orElseO]
        rw [if_neg hcond.1, hfpos]
      · have hstep : catalogStep sets api (fs, rm, pi) v = (fs, rm, pi) := by
          simp only [catalogStep, hp, if_false]
          rw [if_neg hcond]
        rw [List.foldl_cons, hstep, ih fs rm pi hc]
        simp only [Prod.mk.injEq]
        refine ⟨by rw [hfneg], ?_, by rw [hfc]⟩
        by_cases hpi : pi = []
        · rw [if_pos hpi, if_pos hpi, hdpos]
        · have hrm : ∃ r, rm = some r := by
            rcases rm with _ | r
            · exact absurd ⟨hpi, rfl⟩ hcond
            · exact ⟨r, rfl⟩
          obtain ⟨r, hr⟩ := hrm
          rw [hr]
          simp [orElseO]

theorem buildRecord_present_in (versions : List String)
    (sets : String → List String) (api : String) :
    (buildRecord versions sets api).present_in =
      versions.filter (presentB sets api) := by
  unfold buildRecord
  rw [catalog_foldl_spec sets api versions none none [] (by simp)]
  rfl

theorem buildRecord_removed (versions : List String)
    (sets : String → List String) (api : String) :
    (buildRecord versions sets api).removed =
      (versions.dropWhile (fun v => !presentB sets api v)).find?
        (fun v => !presentB sets api v) := by
  unfold buildRecord
  rw [catalog_foldl_spec sets api versions none none [] (by simp)]
  rfl

theorem buildRecord_status (versions : List String)
    (sets : String → List String) (api : String) :
    (buildRecord versions sets api).status =
      (if api ∈ sets (versions.getLastD "") then "present"
       else if versions.filter (presentB sets api) ≠ [] then "removed"
       else "never_present") := by
  unfold buildRecord
  rw [catalog_foldl_spec sets api versions none none [] (by simp)]
  rfl

theorem find?_decomp (p : α → Bool) (l : List α) (r : α) (h : l.find? p = some r) :
    ∃ C t, l = C ++ r :: t ∧ (∀ v ∈ C, p v = false) ∧ p r = true := by
  induction l with
  | nil => simp at h
  | cons a rest ih =>
    by_cases hp : p a
    · rw [List.find?_cons_of_pos _ hp] at h
      cases h
      exact ⟨[], rest, rfl, by simp, hp⟩
    · rw [List.find?_cons_of_neg _ hp] at h
      obtain ⟨C, t, he, hC, hr⟩ := ih h
      exact ⟨a :: C, t, by rw [he]; rfl,
        by intro v hv
           rcases List.mem_cons.mp hv with h1 | h1
           · subst h1; simpa using hp
           · exact hC v h1,
        hr⟩

theorem find?_dropWhile_decomp (p : α → Bool) (l : List α) (r : α)
    (h : (l.dropWhile (fun v => !p v)).find? (fun v => !p v) = some r) :
    ∃ A C t, l = A ++ (C ++ r :: t) ∧ (∀ v ∈ A, p v = false) ∧
      (∀ v ∈ C, p v = true) ∧ C ≠ [] ∧ p r = false := by
  obtain ⟨C, t, he, hC, hr⟩ := find?_decomp _ _ _ h
  refine ⟨l.takeWhile (fun v => !p v), C, t, ?_, ?_, ?_, ?_, ?_⟩
  · rw [← he, List.takeWhile_append_dropWhile]
  · intro v hv
    have := List.mem_takeWhile_imp hv
    simpa using this
  · intro v hv
    have := hC v hv
    simpa using this
  · intro hCnil
    subst hCnil
    simp only [List.nil_append] at he
    have hh := List.head?_dropWhile_not (fun v => !p v) l
    rw [he] at hh
    simp only [List.head?_cons] at hh
    simp at hh
    simp [hh] at hr
  · simpa using hr

/-- C1 counterexample: versions `["1.0", "2.0", "3.0"]` with the symbol `f`
present in 1.0, absent from 2.0, present again in 3.0.  The catalog marks
`removed = "2.0"`, yet `f` is a member of the 3.0 set — a version from the
removal point onward — and its status is even `present`.  This refutes the
part of the claim stating that a symbol with `removed = r` is absent from
every version from `r` onward and never counts as present again. -/
theorem catalog_flicker_counterexample :
    (generate_api_catalog vers3 setsFlicker).lookup "f" =
      some { introduced := none, removed := some "2.0", status := "present",
             present_in := ["1.0", "3.0"] } ∧
    "f" ∈ setsFlicker "3.0" ∧
    vers3.indexOf "2.0" ≤ vers3.indexOf "3.0" ∧ "3.0" ∈ vers3 := by
  refine ⟨by decide, by decide, by decide, by decide⟩

/-- C1 amended: in every catalog record, if `status = present` the symbol is a
member of the last version's set; and if `removed = r` then the range splits
as `A ++ C ++ r :: t` with the symbol absent throughout `A`, present
throughout the non-empty run `C`, and absent at `r` — that is, `removed` is
fixed at the first version where the symbol is absent after having appeared
earlier, and is never overwritten.  (Contrary to the original claim, the
symbol may re-appear in versions after `r` and then even counts as present.) -/
theorem catalog_lifecycle (versions : List String) (sets : String → List String)
    (api : String) (rec : ApiRecord)
    (hmem : (api, rec) ∈ generate_api_catalog versions sets) :
    (rec.status = "present" → api ∈ sets (versions.getLastD "")) ∧
    (∀ r, rec.removed = some r →
      ∃ A C t, versions = A ++ (C ++ r :: t) ∧
        (∀ v ∈ A, api ∉ sets v) ∧ (∀ v ∈ C, api ∈ sets v) ∧
        C ≠ [] ∧ api ∉ sets r) := by
  unfold generate_api_catalog at hmem
  obtain ⟨a, _, hpair⟩ := List.mem_map.mp hmem
  have hrec : rec = buildRecord versions sets api := by
    have h1 : a = api := congrArg Prod.fst hpair
    have h2 : buildRecord versions sets a = rec := congrArg Prod.snd hpair
    rw [← h2, h1]
  constructor
  · intro hst
    rw [hrec, buildRecord_status] at hst
    by_cases hl : api ∈ sets (versions.getLastD "")
    · exact hl
    · rw [if_neg hl] at hst
      by_cases hf : versions.filter (presentB sets api) ≠ []
      · rw [if_pos hf] at hst
        simp at hst
      · rw [if_neg hf] at hst
        simp at hst
  · intro r hr
    rw [hrec, buildRecord_removed] at hr
    obtain ⟨A, C, t, he, hA, hC, hCne, hrp⟩ :=
      find?_dropWhile_decomp (presentB sets api) versions r hr
    refine ⟨A, C, t, he, ?_, ?_, hCne, ?_⟩
    · intro v hv
      have := hA v hv
      simpa [presentB] using this
    · intro v hv
      have := hC v hv
      simpa [presentB] using this
    · simpa [presentB] using hrp

/-- Witness for the amended C1 at the concrete input where `f` is present in
1.0 and 2.0 and dropped in 3.0: the removal point 3.0 splits the range. -/
theorem catalog_lifecycle_witness :
    ∃ A C t, vers3 = A ++ (C ++ "3.0" :: t) ∧
      (∀ v ∈ A, "f" ∉ setsDropped v) ∧ (∀ v ∈ C, "f" ∈ setsDropped v) ∧
      C ≠ [] ∧ "f" ∉ setsDropped "3.0" :=
  (catalog_lifecycle vers3 setsDropped "f"
    { introduced := none, removed := some "3.0", status := "removed",
      present_in := ["1.0", "2.0"] } (by decide)).2 "3.0" (by decide)

/-- C10: every symbol that is a key of the catalog's `apis` map has a
non-empty `present_in` and a status that is either `present` or `removed`;
the defensive `never_present` branch is unreachable because the key set is
exactly the union of the per-version sets. -/
theorem catalog_keys_total (versions : List String) (sets : String → List String)
    (api : String) (rec : ApiRecord)
    (hmem : (api, rec) ∈ generate_api_catalog versions sets) :
    rec.present_in ≠ [] ∧ (rec.status = "present" ∨ rec.status = "removed") := by
  unfold generate_api_catalog at hmem
  obtain ⟨a, ha, hpair⟩ := List.mem_map.mp hmem
  have h1 : a = api := congrArg Prod.fst hpair
  have hrec : rec = buildRecord versions sets api := by
    have h2 : buildRecord versions sets a = rec := congrArg Prod.snd hpair
    rw [← h2, h1]
  subst h1
  unfold sortStr at ha
  rw [mem_isort, List.mem_dedup] at ha
  obtain ⟨v, hv, hin⟩ := List.mem_flatMap.mp ha
  have hfil : v ∈ versions.filter (presentB sets a) :=
    List.mem_filter.mpr ⟨hv, by simp [presentB, hin]⟩
  have hne : versions.filter (presentB sets a) ≠ [] :=
    List.ne_nil_of_mem hfil
  constructor
  · rw [hrec, buildRecord_present_in]
    exact hne
  · rw [hrec, buildRecord_status]
    by_cases hl : a ∈ sets (versions.getLastD "")
    · exact Or.inl (by rw [if_pos hl])
    · exact Or.inr (by rw [if_neg hl, if_pos hne])

/-- Witness for C10 at the Scenario B sets over `["1.0", "2.0", "3.0"]`. -/
theorem catalog_keys_total_witness :
    ({ introduced := none, removed := some "3.0", status := "removed",
       present_in := ["1.0", "2.0"] } : ApiRecord).present_in ≠ [] ∧
    (({ introduced := none, removed := some "3.0", status := "removed",
        present_in := ["1.0", "2.0"] } : ApiRecord).status = "present" ∨
     ({ introduced := none, removed := some "3.0", status := "removed",
        present_in := ["1.0", "2.0"] } : ApiRecord).status = "removed") :=
  catalog_keys_total vers3 setsScenB "f"
    { introduced := none, removed := some "3.0", status := "removed",
      present_in := ["1.0", "2.0"] } (by decide)

theorem introScan_count (apiOf : String → List String) (api : String)
    (fs : Bool) (l : List String) :
    (introScan apiOf api fs l).2.2 =
      (introScan apiOf api fs l).1.length +
      (introScan apiOf api fs l).2.1.length := by
  induction l with
  | nil => rfl
  | cons v rest ih =>
    by_cases hp : api ∈ apiOf v
    · simp only [introScan, hp, if_true, List.length_cons]
      omega
    · cases fs
      · simp [introScan, hp]
      · simp only [introScan, hp, if_false, if_true, List.length_cons]
        omega

theorem removalScan_count (apiOf : String → List String) (api : String)
    (fs : Bool) (l : List String) :
    (removalScan apiOf api fs l).2.2 =
      (removalScan apiOf api fs l).1.length +
      (removalScan apiOf api fs l).2.1.length := by
  induction l with
  | nil => rfl
  | cons v rest ih =>
    by_cases hp : api ∈ apiOf v
    · cases fs
      · have h := introScan_count apiOf api false rest
        simp [removalScan, hp]
        omega
      · simp [removalScan, hp]
        omega
    · simp only [removalScan, hp, if_false, List.length_cons]
      omega

theorem find_api_history_count (versions : List String)
    (apiOf : String → List String) (api : String) (full_scan : Bool) :
    (find_api_history versions apiOf api full_scan).versions_checked =
      (find_api_history versions apiOf api full_scan).present_in.length +
      (find_api_history versions apiOf api full_scan).not_found_in.length := by
  unfold find_api_history
  cases hv : versions.reverse with
  | nil => rfl
  | cons latest rest =>
    by_cases hp : api ∈ apiOf latest
    · simp only [hp, if_true]
      have h1 := introScan_count apiOf api full_scan rest
      have h2 : (sortByRank versions
          (latest :: (introScan apiOf api full_scan rest).1)).length =
          (introScan apiOf api full_scan rest).1.length + 1 := by
        rw [sortByRank, length_isort, List.length_cons]
      omega
    · simp only [hp, if_false]
      have h1 := removalScan_count apiOf api full_scan rest
      cases hs : sortByRank versions (removalScan apiOf api full_scan rest).1 with
      | nil =>
        have h2 : (removalScan apiOf api full_scan rest).1 = [] := by
          rw [sortByRank] at hs
          exact (isort_eq_nil_iff _ _).mp hs
        have h3 : (removalScan apiOf api full_scan rest).1.length = 0 := by
          rw [h2]
          rfl
        simp only [List.length_cons, List.length_nil]
        omega
      | cons ph pt =>
        have h2 : (ph :: pt).length =
            (removalScan apiOf api full_scan rest).1.length := by
          rw [← hs, sortByRank, length_isort]
        simp only [List.length_cons] at h2 ⊢
        omega

/-- C3: Scenario D concretely — for versions `[1.0, 2.0, 3.0]` and a symbol
present only in 3.0, the boundary search without full-scan fetches exactly
the two versions 3.0 and then 2.0 (1.0 is never fetched: the versions
examined are exactly those recorded in `present_in` and `not_found_in`),
reports `versions_checked = 2` and concludes `introduced = 3.0`; and in
general the count of versions actually fetched is recorded in the result:
`versions_checked` always equals the number of versions recorded present plus
the number recorded absent. -/
theorem boundary_scenario_d :
    (find_api_history vers3 setsOnlyNewest "s" false).versions_checked = 2 ∧
    (find_api_history vers3 setsOnlyNewest "s" false).introduced = some "3.0" ∧
    (find_api_history vers3 setsOnlyNewest "s" false).present_in = ["3.0"] ∧
    (find_api_history vers3 setsOnlyNewest "s" false).not_found_in = ["2.0"] ∧
    (∀ (versions : List String) (apiOf : String → List String) (api : String)
        (full_scan : Bool),
      (find_api_history versions apiOf api full_scan).versions_checked =
        (find_api_history versions apiOf api full_scan).present_in.length +
        (find_api_history versions apiOf api full_scan).not_found_in.length) :=
  ⟨by decide, by decide, by decide, by decide, find_api_history_count⟩

/-- C9 counterexample: versions `[1.0, 2.0, 3.0]` with the symbol `f` present
in 1.0 and 3.0 but absent from 2.0 — the version immediately preceding the
newest.  Under full-scan the engine walks past the gap and reports
`introduced = 1.0`, not the newest version 3.0, refuting the claim's
parenthetical "in both boundary-stop and full-scan modes". -/
theorem boundary_full_scan_counterexample :
    "f" ∈ setsFlicker "3.0" ∧ "f" ∉ setsFlicker "2.0" ∧
    (find_api_history vers3 setsFlicker "f" true).introduced = some "1.0" ∧
    (find_api_history vers3 setsFlicker "f" true).introduced ≠ some "3.0" :=
  ⟨by decide, by decide, by decide, by decide⟩

/-- C9 amended: for a symbol present in the newest version, `removed` is unset
whenever every historical version checked had the symbol present (the
introduction branch in fact never sets `removed`, in either mode); and if the
symbol is absent from the version immediately preceding the newest, then in
boundary-stop mode (no full-scan) `introduced` is the newest version.  Under
full-scan the walk continues past the gap and `introduced` is the oldest
version found present, which can be older than the newest version. -/
theorem boundary_present_branch (versions : List String)
    (apiOf : String → List String) (api : String)
    (latest prev : String) (rest : List String)
    (hrev : versions.reverse = latest :: prev :: rest)
    (hpres : api ∈ apiOf latest) :
    (∀ full_scan,
      (find_api_history versions apiOf api full_scan).not_found_in = [] →
      (find_api_history versions apiOf api full_scan).removed = none) ∧
    (api ∉ apiOf prev →
      (find_api_history versions apiOf api false).introduced = some latest) := by
  constructor
  · intro full_scan _
    unfold find_api_history
    rw [hrev]
    simp only [hpres, if_true]
  · intro hprev
    unfold find_api_history
    rw [hrev]
    simp only [hpres, if_true]
    have hscan : introScan apiOf api false (prev :: rest) = ([], [prev], 1) := by
      simp [introScan, hprev]
    rw [hscan]
    simp [sortByRank, isort, insertSorted]

/-- Witness for the amended C9 over `[1.0, 2.0, 3.0]`: the symbol `e`,
present everywhere, ends with `removed` unset; the symbol `s`, present only
in 3.0, gets `introduced = 3.0` in boundary-stop mode. -/
theorem boundary_present_branch_witness :
    (find_api_history vers3 setsEvery "e" false).removed = none ∧
    (find_api_history vers3 setsOnlyNewest "s" false).introduced = some "3.0" :=
  ⟨(boundary_present_branch vers3 setsEvery "e" "3.0" "2.0" ["1.0"]
      (by decide) (by decide)).1 false (by decide),
   (boundary_present_branch vers3 setsOnlyNewest "s" "3.0" "2.0" ["1.0"]
      (by decide) (by decide)).2 (by decide)⟩

theorem introScan_false_spec (apiOf : String → List String) (api : String)
    (l : List String) :
    introScan apiOf api false l =
      (l.takeWhile (presentB apiOf api),
       (l.dropWhile (presentB apiOf api)).take 1,
       (l.takeWhile (presentB apiOf api)).length +
         ((l.dropWhile (presentB apiOf api)).take 1).length) := by
  induction l with
  | nil => rfl
  | cons v rest ih =>
    by_cases hp : api ∈ apiOf v
    · have hpb : presentB apiOf api v = true := by simp [presentB, hp]
      rw [List.takeWhile_cons_of_pos hpb, List.dropWhile_cons_of_pos hpb]
      simp only [introScan, hp, if_true, ih, Prod.mk.injEq, List.length_cons]
      refine ⟨by simp, by simp, by omega⟩
    · have hpb : presentB apiOf api v = false := by simp [presentB, hp]
      rw [List.takeWhile_cons_of_neg (by simp [hpb]),
        List.dropWhile_cons_of_neg (by simp [hpb])]
      simp [introScan, hp]

theorem introScan_true_spec (apiOf : String → List String) (api : String)
    (l : List String) :
    introScan apiOf api true l =
      (l.filter (presentB apiOf api),
       l.filter (fun v => !presentB apiOf api v), l.length) := by
  induction l with
  | nil => rfl
  | cons v rest ih =>
    by_cases hp : api ∈ apiOf v
    · have hpb : presentB apiOf api v = true := by simp [presentB, hp]
      simp [introScan, hp, ih, List.filter_cons, hpb]
    · have hpb : presentB apiOf api v = false := by simp [presentB, hp]
      simp [introScan, hp, ih, List.filter_cons, hpb]

theorem removalScan_true_spec (apiOf : String → List String) (api : String)
    (l : List String) :
    removalScan apiOf api true l =
      (l.filter (presentB apiOf api),
       l.filter (fun v => !presentB apiOf api v), l.length) := by
  induction l with
  | nil => rfl
  | cons v rest ih =>
    by_cases hp : api ∈ apiOf v
    · have hpb : presentB apiOf api v = true := by simp [presentB, hp]
      simp [removalScan, hp, ih, List.filter_cons, hpb]
    · have hpb : presentB apiOf api v = false := by simp [presentB, hp]
      simp [removalScan, hp, ih, List.filter_cons, hpb]

theorem removalScan_all_absent (apiOf : String → List String) (api : String)
    (fs : Bool) (l : List String) (h : ∀ v ∈ l, api ∉ apiOf v) :
    removalScan apiOf api fs l = ([], l, l.length) := by
  revert h
  induction l with
  | nil => intro _; rfl
  | cons v rest ih =>
    intro h
    have hp : api ∉ apiOf v := h v (by simp)
    simp [removalScan, hp, ih (fun u hu => h u (by simp [hu]))]

theorem removalScan_false_found (apiOf : String → List String) (api : String)
    (l : List String) (w : String) (t : List String)
    (hw : l.dropWhile (fun v => !presentB apiOf api v) = w :: t) :
    removalScan apiOf api false l =
      (w :: t.takeWhile (presentB apiOf api),
       l.takeWhile (fun v => !presentB apiOf api v) ++
         (t.dropWhile (presentB apiOf api)).take 1,
       (l.takeWhile (fun v => !presentB apiOf api v)).length + 1 +
         ((t.takeWhile (presentB apiOf api)).length +
          ((t.dropWhile (presentB apiOf api)).take 1).length)) := by
  revert hw
  induction l with
  | nil => intro hw; simp at hw
  | cons v rest ih =>
    intro hw
    by_cases hp : api ∈ apiOf v
    · have hpb : presentB apiOf api v = true := by simp [presentB, hp]
      rw [List.dropWhile_cons_of_neg (by simp [hpb])] at hw
      injection hw with hw1 hw2
      subst hw1
      subst hw2
      rw [List.takeWhile_cons_of_neg (by simp [hpb])]
      simp only [removalScan, hp, if_true, Bool.false_eq_true, if_false]
      rw [introScan_false_spec]
      simp only [List.nil_append, List.length_nil, Prod.mk.injEq]
      refine ⟨by simp, by simp, by omega⟩
    · have hpb : presentB apiOf api v = false := by simp [presentB, hp]
      rw [List.dropWhile_cons_of_pos (by simp [hpb])] at hw
      rw [List.takeWhile_cons_of_pos (by simp [hpb])]
      simp only [removalScan, hp, if_false]
      rw [ih hw]
      simp only [Prod.mk.injEq, List.length_cons, List.cons_append]
      refine ⟨by simp, by simp, by omega⟩

theorem introScan_present_mem (apiOf : String → List String) (api : String)
    (fs : Bool) (l : List String) :
    ∀ v ∈ (introScan apiOf api fs l).1, v ∈ l ∧ api ∈ apiOf v := by
  induction l with
  | nil => intro v hv; simp [introScan] at hv
  | cons u rest ih =>
    intro v hv
    by_cases hp : api ∈ apiOf u
    · simp only [introScan, hp, if_true, List.mem_cons] at hv
      rcases hv with h1 | h1
      · subst h1; exact ⟨by simp, hp⟩
      · obtain ⟨hm, hpr⟩ := ih v h1
        exact ⟨by simp [hm], hpr⟩
    · cases fs
      · simp [introScan, hp] at hv
      · simp only [introScan, hp, if_false, if_true] at hv
        obtain ⟨hm, hpr⟩ := ih v hv
        exact ⟨by simp [hm], hpr⟩

theorem removalScan_present_mem (apiOf : String → List String) (api : String)
    (fs : Bool) (l : List String) :
    ∀ v ∈ (removalScan apiOf api fs l).1, v ∈ l ∧ api ∈ apiOf v := by
  induction l with
  | nil => intro v hv; simp [removalScan] at hv
  | cons u rest ih =>
    intro v hv
    by_cases hp : api ∈ apiOf u
    · cases fs
      · simp only [removalScan, hp, if_true, Bool.false_eq_true, if_false,
          List.mem_cons] at hv
        rcases hv with h1 | h1
        · subst h1; exact ⟨by simp, hp⟩
        · obtain ⟨hm, hpr⟩ := introScan_present_mem apiOf api false rest v h1
          exact ⟨by simp [hm], hpr⟩
      · simp only [removalScan, hp, if_true, List.mem_cons] at hv
        rcases hv with h1 | h1
        · subst h1; exact ⟨by simp, hp⟩
        · obtain ⟨hm, hpr⟩ := ih v h1
          exact ⟨by simp [hm], hpr⟩
    · simp only [removalScan, hp, if_false] at hv
      obtain ⟨hm, hpr⟩ := ih v hv
      exact ⟨by simp [hm], hpr⟩

theorem present_in_eq_nil_iff (versions : List String)
    (apiOf : String → List String) (api : String) (fs : Bool) :
    (find_api_history versions apiOf api fs).present_in = [] ↔
      ∀ v ∈ versions, api ∉ apiOf v := by
  unfold find_api_history
  cases hv : versions.reverse with
  | nil =>
    have hvn : versions = [] := by
      have := congrArg List.reverse hv
      simpa using this
    subst hvn
    simp
  | cons latest rest =>
    have hmem : ∀ v, v ∈ versions ↔ v = latest ∨ v ∈ rest := by
      intro v
      rw [← List.mem_reverse, hv, List.mem_cons]
    by_cases hp : api ∈ apiOf latest
    · simp only [hp, if_true]
      have hne : sortByRank versions
          (latest :: (introScan apiOf api fs rest).1) ≠ [] := by
        intro h
        rw [sortByRank] at h
        have := (isort_eq_nil_iff _ _).mp h
        simp at this
      constructor
      · intro h
        exact absurd h hne
      · intro h
        exact absurd hp (h latest ((hmem latest).mpr (Or.inl rfl)))
    · simp only [hp, if_false]
      cases hs : sortByRank versions (removalScan apiOf api fs rest).1 with
      | nil =>
        have hr1 : (removalScan apiOf api fs rest).1 = [] := by
          rw [sortByRank] at hs
          exact (isort_eq_nil_iff _ _).mp hs
        constructor
        · intro _
          intro v hvm
          rcases (hmem v).mp hvm with h1 | h1
          · subst h1; exact hp
          · intro hvp
            cases fs with
            | true =>
              have hr2 : rest.filter (presentB apiOf api) = [] := by
                have h3 := hr1
                rw [removalScan_true_spec] at h3
                simpa using h3
              have hmemf : v ∈ rest.filter (presentB apiOf api) :=
                List.mem_filter.mpr ⟨h1, by simp [presentB, hvp]⟩
              rw [hr2] at hmemf
              simp at hmemf
            | false =>
              cases hdw : rest.dropWhile (fun x => !presentB apiOf api x) with
              | nil =>
                have := List.dropWhile_eq_nil_iff.mp hdw v h1
                simp [presentB, hvp] at this
              | cons w t =>
                rw [removalScan_false_found apiOf api rest w t hdw] at hr1
                simp at hr1
        · intro _
          rfl
      | cons ph pt =>
        constructor
        · intro h
          exact absurd h (by simp)
        · intro h
          exfalso
          have hin : ph ∈ sortByRank versions (removalScan apiOf api fs rest).1 := by
            rw [hs]; simp
          rw [sortByRank, mem_isort] at hin
          obtain ⟨hm, hpr⟩ := removalScan_present_mem apiOf api fs rest ph hin
          exact absurd hpr (h ph ((hmem ph).mpr (Or.inr hm)))

/-- C8 counterexample: a single-symbol boundary search whose symbol is found
in no version exits with status 1, not 0: `main` returns
`0 if result['present_in'] else 1`. -/
theorem exit_not_found_counterexample :
    (∀ v ∈ vers3, "x" ∉ setsNone v) ∧
    main_search_exit_code vers3 setsNone "x" false = 1 ∧
    main_search_exit_code vers3 setsNone "x" false ≠ 0 :=
  ⟨by decide, by decide, by decide⟩

/-- C8 amended: the single-symbol tracker run exits 0 exactly when the symbol
was found in at least one version — so a search that finds the symbol nowhere
exits 1 (the result record is still produced, with empty `present_in`); and a
changelog run exits 0 exactly when both version tokens resolve and the
resulting range has at least 2 versions. -/
theorem exit_code_spec (versions all : List String)
    (apiOf : String → List String) (api : String) (full_scan : Bool)
    (since untl : Option String) :
    (main_search_exit_code versions apiOf api full_scan = 0 ↔
      ∃ v ∈ versions, api ∈ apiOf v) ∧
    (changelog_exit_code all since untl = 0 ↔
      ∃ vs, get_version_range all since untl = some vs ∧ 2 ≤ vs.length) := by
  constructor
  · unfold main_search_exit_code
    by_cases h : (find_api_history versions apiOf api full_scan).present_in = []
    · rw [if_pos h]
      rw [present_in_eq_nil_iff] at h
      constructor
      · intro h10
        simp at h10
      · rintro ⟨v, hv, hpr⟩
        exact absurd hpr (h v hv)
    · rw [if_neg h]
      constructor
      · intro _
        by_contra hne
        push_neg at hne
        exact h ((present_in_eq_nil_iff versions apiOf api full_scan).mpr hne)
      · intro _
        rfl
  · unfold changelog_exit_code
    cases hg : get_version_range all since untl with
    | none =>
      constructor
      · intro h10
        simp at h10
      · rintro ⟨vs, hvs, _⟩
        cases hvs
    | some vs =>
      show (if vs.length < 2 then 1 else 0) = 0 ↔
        ∃ vs2, some vs = some vs2 ∧ 2 ≤ vs2.length
      by_cases hl : vs.length < 2
      · rw [if_pos hl]
        constructor
        · intro h10
          simp at h10
        · rintro ⟨vs2, hvs2, h2⟩
          injection hvs2 with hvs2
          subst hvs2
          omega
      · rw [if_neg hl]
        exact ⟨fun _ => ⟨vs, rfl, by omega⟩, fun _ => rfl⟩

/-- C2: for a symbol absent from the newest version but present in at least
one older version, the boundary search without full-scan locates `w`, the
first present version met when walking older — which is also the newest
version in which the symbol is present (every version of strictly greater
rank lacks it) — and returns `removed` equal to the version immediately newer
than `w` in the full ordered version list (the entry at rank
`indexOf w + 1`, which exists), and `introduced` equal to the oldest version
of the contiguous present-run `w :: run` located by walking older from `w`;
`present_in` is exactly that run, in ascending rank order. -/
theorem boundary_removed_introduced (versions : List String)
    (apiOf : String → List String) (api : String)
    (latest w : String) (rest older : List String)
    (hnd : versions.Nodup)
    (hrev : versions.reverse = latest :: rest)
    (habs : api ∉ apiOf latest)
    (hw : rest.dropWhile (fun v => !presentB apiOf api v) = w :: older) :
    api ∈ apiOf w ∧
    (∀ v ∈ versions, api ∈ apiOf v → versions.indexOf v ≤ versions.indexOf w) ∧
    versions.indexOf w + 1 < versions.length ∧
    (find_api_history versions apiOf api false).removed =
      versions[versions.indexOf w + 1]? ∧
    (find_api_history versions apiOf api false).introduced =
      (w :: older.takeWhile (presentB apiOf api)).getLast? ∧
    (find_api_history versions apiOf api false).present_in =
      (w :: older.takeWhile (presentB apiOf api)).reverse := by
  have hA : rest = rest.takeWhile (fun v => !presentB apiOf api v) ++ (w :: older) := by
    rw [← hw, List.takeWhile_append_dropWhile]
  have hpw : presentB apiOf api w = true := by
    have hh := List.head?_dropWhile_not (fun v => !presentB apiOf api v) rest
    rw [hw] at hh
    simp only [List.head?_cons] at hh
    simpa using hh
  have hwin : api ∈ apiOf w := by
    simpa [presentB] using hpw
  have hArun : ∀ v ∈ rest.takeWhile (fun v => !presentB apiOf api v),
      api ∉ apiOf v := by
    intro v hv
    have := List.mem_takeWhile_imp hv
    simpa [presentB] using this
  have hver : versions =
      older.reverse ++
        (w :: ((rest.takeWhile (fun v => !presentB apiOf api v)).reverse ++
          [latest])) := by
    have h1 : versions = versions.reverse.reverse :=
      (List.reverse_reverse versions).symm
    rw [h1, hrev]
    conv_lhs => rw [hA]
    simp [List.reverse_cons, List.reverse_append, List.append_assoc]
  have hnd2 := hnd
  rw [hver] at hnd2
  have hdisj := List.disjoint_of_nodup_append hnd2
  have hwno : w ∉ older.reverse := fun hmem => hdisj hmem (by simp)
  have hidxw : versions.indexOf w = older.reverse.length := by
    rw [hver, List.indexOf_append_of_not_mem hwno, List.indexOf_cons_self]
    omega
  have hbound : versions.indexOf w + 1 < versions.length := by
    rw [hidxw, hver]
    simp [List.length_append]
  have hnewest : ∀ v ∈ versions, api ∈ apiOf v →
      versions.indexOf v ≤ versions.indexOf w := by
    intro v hv hpres
    rw [hver] at hv
    rcases List.mem_append.mp hv with h1 | h1
    · have he : versions.indexOf v = older.reverse.indexOf v := by
        rw [hver, List.indexOf_append_of_mem h1]
      have hlt : older.reverse.indexOf v < older.reverse.length :=
        List.indexOf_lt_length.mpr h1
      rw [he, hidxw]
      omega
    · rcases List.mem_cons.mp h1 with h2 | h2
      · subst h2
        exact Nat.le_refl _
      · exfalso
        rcases List.mem_append.mp h2 with h3 | h3
        · exact hArun v (by rwa [List.mem_reverse] at h3) hpres
        · have : v = latest := by simpa using h3
          subst this
          exact habs hpres
  have hscan := removalScan_false_found apiOf api rest w older hw
  have hsub : (w :: older.takeWhile (presentB apiOf api)).Sublist versions.reverse := by
    rw [hrev]
    refine List.Sublist.trans ?_ (List.sublist_cons_self latest rest)
    refine List.Sublist.trans
      (List.cons_sublist_cons.mpr (List.takeWhile_sublist _)) ?_
    rw [← hw]
    exact List.dropWhile_sublist _
  have hsort : sortByRank versions (w :: older.takeWhile (presentB apiOf api)) =
      (w :: older.takeWhile (presentB apiOf api)).reverse :=
    sortByRank_of_desc versions _ hnd hsub
  rcases hq : (older.takeWhile (presentB apiOf api)).reverse ++ [w] with _ | ⟨ph, pt⟩
  · exact absurd hq (by simp)
  · have hlast : (ph :: pt).getLast? = some w := by
      rw [← hq]
      exact List.getLast?_concat _
    have hgl : ∀ (h : ph :: pt ≠ []), (ph :: pt).getLast h = w := by
      intro h
      have h1 := List.getLast?_eq_getLast (ph :: pt) h
      rw [hlast] at h1
      injection h1 with h2
      exact h2.symm
    have hintro : (w :: older.takeWhile (presentB apiOf api)).getLast? = some ph := by
      rw [← List.head?_reverse, List.reverse_cons, hq]
      rfl
    have hprev : (w :: older.takeWhile (presentB apiOf api)).reverse = ph :: pt := by
      rw [List.reverse_cons, hq]
    refine ⟨hwin, hnewest, hbound, ?_, ?_, ?_⟩
    · unfold find_api_history
      rw [hrev]
      simp only [habs, if_false, hscan]
      rw [hsort, hprev]
      simp only [hgl]
    · unfold find_api_history
      rw [hrev]
      simp only [habs, if_false, hscan]
      rw [hsort, hprev, hintro]
    · unfold find_api_history
      rw [hrev]
      simp only [habs, if_false, hscan]
      rw [hsort, hprev]

/-- Witness for C2: versions `[1.0, 2.0, 3.0]` with `f` present in 1.0 and
2.0 and gone from 3.0: the newest present version is 2.0, `removed` is the
version at rank `indexOf 2.0 + 1` (that is 3.0) and `introduced` is the
oldest version of the run, 1.0. -/
theorem boundary_removed_introduced_witness :
    "f" ∈ setsDropped "2.0" ∧
    (∀ v ∈ vers3, "f" ∈ setsDropped v →
      vers3.indexOf v ≤ vers3.indexOf "2.0") ∧
    vers3.indexOf "2.0" + 1 < vers3.length ∧
    (find_api_history vers3 setsDropped "f" false).removed =
      vers3[vers3.indexOf "2.0" + 1]? ∧
    (find_api_history vers3 setsDropped "f" false).introduced =
      ("2.0" :: (["1.0"].takeWhile (presentB setsDropped "f"))).getLast? ∧
    (find_api_history vers3 setsDropped "f" false).present_in =
      ("2.0" :: (["1.0"].takeWhile (presentB setsDropped "f"))).reverse :=
  boundary_removed_introduced vers3 setsDropped "f" "3.0" "2.0" ["2.0", "1.0"]
    ["1.0"] (by decide) (by decide) (by decide) (by decide)

theorem changelogDiffs_pairs (sets : String → List String) (p : String)
    (l : List String) :
    (changelogDiffs sets p l).map (fun d => (d.previous, d.version)) =
      (p :: l).zip l := by
  induction l generalizing p with
  | nil => rfl
  | cons c rest ih => simp [changelogDiffs, mkDiff, ih]

theorem changelogDiffs_mem (sets : String → List String) (p : String)
    (l : List String) (d : VersionDiff) (hd : d ∈ changelogDiffs sets p l) :
    d = mkDiff sets d.previous d.version := by
  induction l generalizing p with
  | nil => simp [changelogDiffs] at hd
  | cons c rest ih =>
    rcases List.mem_cons.mp hd with h | h
    · subst h
      rfl
    · exact ih c h

theorem mem_mkDiff_added (sets : String → List String) (prev curr a : String) :
    a ∈ (mkDiff sets prev curr).added ↔ a ∈ sets curr ∧ a ∉ sets prev := by
  show a ∈ sortStr (((sets curr).dedup).filter
      (fun x => !(decide (x ∈ (sets prev).dedup)))) ↔ _
  rw [sortStr, mem_isort, List.mem_filter]
  simp [List.mem_dedup]

theorem mem_mkDiff_removed (sets : String → List String) (prev curr a : String) :
    a ∈ (mkDiff sets prev curr).removed ↔ a ∈ sets prev ∧ a ∉ sets curr := by
  show a ∈ sortStr (((sets prev).dedup).filter
      (fun x => !(decide (x ∈ (sets curr).dedup)))) ↔ _
  rw [sortStr, mem_isort, List.mem_filter]
  simp [List.mem_dedup]

theorem foldl_append_eq {β : Type} (f : β → List String) (l : List β) :
    ∀ init : List String,
      l.foldl (fun acc d => acc ++ f d) init = init ++ l.flatMap f := by
  induction l with
  | nil => intro init; simp
  | cons d rest ih =>
    intro init
    simp only [List.foldl_cons, ih, List.flatMap_cons, List.append_assoc]

theorem foldl_add_eq {β : Type} (g : β → Nat) (l : List β) :
    ∀ n : Nat, l.foldl (fun n d => n + g d) n = n + (l.map g).sum := by
  induction l with
  | nil => intro n; simp
  | cons d rest ih =>
    intro n
    simp only [List.foldl_cons, ih, List.map_cons, List.sum_cons]
    omega

theorem flatMap_length_sum {β : Type} (f : β → List String) (l : List β) :
    (l.flatMap f).length = (l.map (fun d => (f d).length)).sum := by
  induction l with
  | nil => rfl
  | cons d rest ih => simp [List.flatMap_cons, ih]

/-- C4: for every range of at least 2 versions, the changelog pairs up
consecutive versions in order; per pair, membership in `added` is exactly
"in the current set and not the previous" and membership in `removed` the
reverse, hence `added ∩ removed = ∅`; the net lists are the set differences
of the accumulated added/removed unions, so a symbol both added and removed
somewhere in the range lies in neither net list; and the sum of per-pair
added counts (`total_added`) is at least the size of `net_new`. -/
theorem changelog_diff_correct (versions : List String)
    (sets : String → List String) (c : Changelog)
    (h : generate_changelog versions sets = some c) :
    (c.versions.map (fun d => (d.previous, d.version)) =
      versions.zip versions.tail) ∧
    (∀ d ∈ c.versions, ∀ a,
      (a ∈ d.added ↔ a ∈ sets d.version ∧ a ∉ sets d.previous) ∧
      (a ∈ d.removed ↔ a ∈ sets d.previous ∧ a ∉ sets d.version)) ∧
    (∀ d ∈ c.versions, ∀ a ∈ d.added, a ∉ d.removed) ∧
    (∀ a, a ∈ c.summary.net_new ↔
      a ∈ c.summary.all_added ∧ a ∉ c.summary.all_removed) ∧
    (∀ a, a ∈ c.summary.net_removed ↔
      a ∈ c.summary.all_removed ∧ a ∉ c.summary.all_added) ∧
    (∀ a, a ∈ c.summary.all_added → a ∈ c.summary.all_removed →
      a ∉ c.summary.net_new ∧ a ∉ c.summary.net_removed) ∧
    c.summary.net_new.length ≤ c.summary.total_added := by
  match versions, h with
  | v0 :: v1 :: rest, h =>
    have hc : c =
        { versions := changelogDiffs sets v0 (v1 :: rest),
          summary :=
            { total_added := (changelogDiffs sets v0 (v1 :: rest)).foldl
                (fun n d => n + d.added_count) 0,
              total_removed := (changelogDiffs sets v0 (v1 :: rest)).foldl
                (fun n d => n + d.removed_count) 0,
              all_added := sortStr ((changelogDiffs sets v0 (v1 :: rest)).foldl
                (fun acc d => acc ++ d.added) []).dedup,
              all_removed := sortStr ((changelogDiffs sets v0 (v1 :: rest)).foldl
                (fun acc d => acc ++ d.removed) []).dedup,
              net_new := sortStr ((sortStr ((changelogDiffs sets v0
                  (v1 :: rest)).foldl (fun acc d => acc ++ d.added) []).dedup).filter
                (fun a => !(decide (a ∈ sortStr ((changelogDiffs sets v0
                  (v1 :: rest)).foldl (fun acc d => acc ++ d.removed) []).dedup)))),
              net_removed := sortStr ((sortStr ((changelogDiffs sets v0
                  (v1 :: rest)).foldl (fun acc d => acc ++ d.removed) []).dedup).filter
                (fun a => !(decide (a ∈ sortStr ((changelogDiffs sets v0
                  (v1 :: rest)).foldl (fun acc d => acc ++ d.added) []).dedup)))) } } := by
      have h2 := h
      unfold generate_changelog at h2
      injection h2 with h3
      exact h3.symm
    subst hc
    set D := changelogDiffs sets v0 (v1 :: rest) with hD
    set AA := sortStr (D.foldl (fun acc d => acc ++ d.added) []).dedup with hAA
    set AR := sortStr (D.foldl (fun acc d => acc ++ d.removed) []).dedup with hAR
    have hnet1 : ∀ a, a ∈ sortStr (AA.filter (fun x => !(decide (x ∈ AR)))) ↔
        a ∈ AA ∧ a ∉ AR := by
      intro a
      rw [sortStr, mem_isort, List.mem_filter]
      simp
    have hnet2 : ∀ a, a ∈ sortStr (AR.filter (fun x => !(decide (x ∈ AA)))) ↔
        a ∈ AR ∧ a ∉ AA := by
      intro a
      rw [sortStr, mem_isort, List.mem_filter]
      simp
    refine ⟨?_, ?_, ?_, hnet1, hnet2, ?_, ?_⟩
    · exact changelogDiffs_pairs sets v0 (v1 :: rest)
    · intro d hd a
      have hde := changelogDiffs_mem sets v0 (v1 :: rest) d hd
      constructor
      · rw [show d.added = (mkDiff sets d.previous d.version).added from by
          rw [← hde]]
        exact mem_mkDiff_added sets d.previous d.version a
      · rw [show d.removed = (mkDiff sets d.previous d.version).removed from by
          rw [← hde]]
        exact mem_mkDiff_removed sets d.previous d.version a
    · intro d hd a ha
      have hde := changelogDiffs_mem sets v0 (v1 :: rest) d hd
      have h1 : a ∈ sets d.version ∧ a ∉ sets d.previous := by
        rw [show d.added = (mkDiff sets d.previous d.version).added from by
          rw [← hde]] at ha
        exact (mem_mkDiff_added sets d.previous d.version a).mp ha
      intro hr
      have h2 : a ∈ sets d.previous ∧ a ∉ sets d.version := by
        rw [show d.removed = (mkDiff sets d.previous d.version).removed from by
          rw [← hde]] at hr
        exact (mem_mkDiff_removed sets d.previous d.version a).mp hr
      exact h1.2 h2.1
    · intro a ha hr
      exact ⟨fun hcon => ((hnet1 a).mp hcon).2 hr,
             fun hcon => ((hnet2 a).mp hcon).2 ha⟩
    · show (sortStr (AA.filter (fun x => !(decide (x ∈ AR))))).length ≤
        D.foldl (fun n d => n + d.added_count) 0
      have e1 : D.foldl (fun n d => n + d.added_count) 0 =
          (D.map (fun d => d.added_count)).sum := by
        rw [foldl_add_eq]
        exact Nat.zero_add _
      have e2 : D.foldl (fun acc d => acc ++ d.added) [] =
          D.flatMap (fun d => d.added) := by
        rw [foldl_append_eq]
        rfl
      have h3 : (sortStr (AA.filter (fun x => !(decide (x ∈ AR))))).length ≤
          AA.length := by
        rw [sortStr, length_isort]
        exact List.length_filter_le _ _
      have h4 : AA.length ≤ (D.foldl (fun acc d => acc ++ d.added) []).length := by
        rw [hAA, sortStr, length_isort]
        exact (List.dedup_sublist _).length_le
      have h5 : (D.foldl (fun acc d => acc ++ d.added) []).length =
          (D.map (fun d => d.added_count)).sum := by
        rw [e2, flatMap_length_sum]
        congr 1
        apply List.map_congr_left
        intro d hd
        rw [changelogDiffs_mem sets v0 (v1 :: rest) d hd]
        rfl
      omega

/-- Witness for C4 at Scenario B: versions `[1.0, 2.0, 3.0]` with sets
`{1.0: {f}, 2.0: {f, g}, 3.0: {g}}`. -/
theorem changelog_diff_correct_witness :
    ∃ c, generate_changelog vers3 setsScenB = some c ∧
      c.summary.net_new.length ≤ c.summary.total_added := by
  refine ⟨_, rfl, ?_⟩
  exact (changelog_diff_correct vers3 setsScenB _ rfl).2.2.2.2.2.2

theorem tryCandidates_all_fail (env : Env) (hfail : ∀ url, env.fetch url = "")
    (acc : List String) (urls : List String) :
    tryCandidates env acc urls = acc := by
  induction urls generalizing acc with
  | nil => rfl
  | cons u rest ih => simp [tryCandidates, hfail u, ih]

theorem fetchApis_all_fail (env : Env) (all_versions : List String)
    (version api_type : String) (hfail : ∀ url, env.fetch url = "") :
    fetchApis env all_versions version api_type = [] := by
  unfold fetchApis
  simp only [tryCandidates_all_fail env hfail, hfail]
  simp

/-- C7 counterexample: in an environment in which every fetch fails (no
candidate URL yields content), the cache operation does return an empty set
and no error, but it does NOT persist that set before returning it: the write
is guarded by `if apis and use_cache` (line 259), so the returned cache is
unchanged and holds no entry for the key.  This refutes the part of the claim
stating that the empty outcome "gets written to the cache". -/
theorem cache_empty_not_persisted :
    (get_api_list_for_version envDead vers3 [] true "3.0" "runtime").1 = [] ∧
    (get_api_list_for_version envDead vers3 [] true "3.0" "runtime").2 = [] ∧
    ((get_api_list_for_version envDead vers3 [] true "3.0" "runtime").2).lookup
      ("runtime", "3.0") = none :=
  ⟨by decide, by decide, by decide⟩

/-- C7 amended: for every key, when no URL yields content the cache operation
returns the empty set rather than an error and leaves the cache unchanged —
the empty outcome is valid but is NOT persisted (the write is guarded by
`if apis and use_cache`); a non-empty outcome obtained with caching enabled
is persisted before returning, so the key is present in the returned cache. -/
theorem cache_fetch_spec (env env2 : Env) (all_versions all2 : List String)
    (cache cache2 : Cache) (use_cache : Bool) (version api_type v2 t2 : String)
    (hfail : ∀ url, env.fetch url = "")
    (hmiss : (if use_cache then cache.lookup (api_type, version) else none) = none) :
    get_api_list_for_version env all_versions cache use_cache version api_type =
      ([], cache) ∧
    ((get_api_list_for_version env2 all2 cache2 true v2 t2).1 ≠ [] →
      ((get_api_list_for_version env2 all2 cache2 true v2 t2).2).lookup (t2, v2) ≠
        none) := by
  constructor
  · unfold get_api_list_for_version
    simp only [hmiss, fetchApis_all_fail env all_versions version api_type hfail]
    simp
  · intro hne
    unfold get_api_list_for_version at hne ⊢
    cases hc2 : List.lookup (t2, v2) cache2 with
    | some val =>
      simp [hc2]
    | none =>
      simp [hc2] at hne ⊢
      by_cases hA : (fetchApis env2 all2 v2 t2).isEmpty
      · exfalso
        rw [List.isEmpty_iff] at hA
        exact hne (by simp [hA])
      · have hA2 : (fetchApis env2 all2 v2 t2).isEmpty = false := by
          cases h : (fetchApis env2 all2 v2 t2).isEmpty
          · rfl
          · exact absurd h hA
        have hne2 : fetchApis env2 all2 v2 t2 ≠ [] := by
          intro h
          rw [h] at hA2
          simp at hA2
        rw [if_neg hne2]
        exact ⟨sortStr (fetchApis env2 all2 v2 t2).dedup, by simp⟩

/-- Witness for the amended C7: in the dead environment over an empty cache
the operation returns the empty set and the cache stays empty. -/
theorem cache_fetch_spec_witness :
    get_api_list_for_version envDead vers3 [] true "3.0" "runtime" = ([], []) :=
  (cache_fetch_spec envDead envDead vers3 vers3 [] [] true "3.0" "runtime"
    "3.0" "runtime" (fun _ => rfl) (by decide)).1

end CudaTrack
